import Mathlib

/-!
Verification of the asynchronous patent-search task orchestrator
(`src/api.py`): task lifecycle, record deduplication, statistics
aggregation, result persistence and result payload shapes, embedded
shallowly as Lean functions over explicit task-snapshot traces.
-/

namespace Pharmyrus

/-- Task lifecycle status, as stored in `tasks[task_id]["status"]`. -/
inductive Status where
  | queued
  | running
  | completed
  | failed
deriving DecidableEq, Repr

/-- One retrieved patent record.  Python represents records as open dicts;
we embed the fields `api.py` reads (`publicationNumber`, `publicationDate`,
`applicants`, `inventors`, and the `pais_filtro` tag the worker adds). -/
structure Record where
  publicationNumber : String := ""
  publicationDate : String := ""
  applicants : List String := []
  inventors : List String := []
  pais_filtro : Option String := none
deriving DecidableEq, Repr

/-- The `SearchRequest` pydantic model (fields the worker reads). -/
structure SearchRequest where
  term : String
  limit : Nat := 50
  countries : Option (List String) := none
  use_login : Bool := false
  get_details : Bool := false
  max_details : Option Nat := none
deriving DecidableEq, Repr

/-- The four frequency tables computed at lines 153-185 of `api.py`,
each a Python dict embedded as an insertion-ordered association list. -/
structure Stats where
  por_pais : List (String × Nat)
  por_ano : List (String × Nat)
  top_applicants : List (String × Nat)
  top_inventors : List (String × Nat)
deriving DecidableEq, Repr

/-- The `search_info` block of the summary (lines 199-207). -/
structure SearchInfo where
  termo : String
  data_busca : String
  total_encontrado : Nat
  total_unico : Nat
  paises_filtro : Option (List String)
  limite : Nat
  detalhes_completos : Bool
deriving DecidableEq, Repr

/-- The `files` block of the completed result payload (lines 223-226). -/
structure ResultFiles where
  json_complete : String
  summary : String
deriving DecidableEq, Repr

/-- The two dict shapes ever assigned to `tasks[task_id]["result"]`:
the empty-search payload of lines 130-134 and the completed payload of
lines 218-227. -/
inductive ResultPayload where
  | empty (message : String) (total_found : Nat) (patents : List Record)
  | full (search_info : SearchInfo) (statistics : Stats) (total_patents : Nat)
      (patents : List Record) (files : ResultFiles)
deriving DecidableEq, Repr

/-- The dict keys present in each result payload shape, in insertion order,
exactly as the two dict literals in `api.py` write them. -/
def ResultPayload.keys : ResultPayload → List String
  | .empty .. => ["message", "total_found", "patents"]
  | .full .. => ["search_info", "statistics", "total_patents", "patents", "files"]

/-- The `total_patents` entry of a result payload, when that key is present. -/
def ResultPayload.totalPatents : ResultPayload → Option Nat
  | .empty .. => none
  | .full _ _ n _ _ => some n

/-- One task registry entry: the mutable fields of `tasks[task_id]`
that the endpoints observe (`status`, `progress`, `result`, `error`). -/
structure Task where
  status : Status
  progress : Option String := none
  result : Option ResultPayload := none
  error : Option String := none
deriving DecidableEq, Repr

/-- The task as created by `POST /search` (line 265): status `queued`,
no progress, no result, no error. -/
def initTask : Task := { status := .queued }

/-! ## Deduplication (lines 116-123) -/

/-- One iteration of the dedup loop: Python inserts `p` into the
`unique_patents` dict only when its `publicationNumber` is non-empty
(truthy) and not already a key.  Dict insertion appends a fresh key at
the end, so the dict is an insertion-ordered association list. -/
def insertUnique (acc : List (String × Record)) (p : Record) : List (String × Record) :=
  let pub := p.publicationNumber
  if pub ≠ "" ∧ acc.lookup pub = none then acc ++ [(pub, p)] else acc

/-- The `unique_patents` dict after the loop at lines 117-121. -/
def uniquePatents (l : List Record) : List (String × Record) :=
  l.foldl insertUnique []

/-- `patents_list = list(unique_patents.values())` (line 123). -/
def patentsList (l : List Record) : List Record :=
  (uniquePatents l).map Prod.snd

/-- Modelled from the spec: the RecordDeduplicator contract in its own
words ("for each distinct non-empty publication identifier, the first
Record encountered bearing that identifier", in order, dropping records
with missing/empty identifier), used as the reference for the refinement
proof about `patentsList`.  `seen` is the set of identifiers already kept. -/
def dedupSpec (seen : List String) : List Record → List Record
  | [] => []
  | p :: ps =>
    if p.publicationNumber ≠ "" ∧ p.publicationNumber ∉ seen then
      p :: dedupSpec (p.publicationNumber :: seen) ps
    else
      dedupSpec seen ps

theorem dedupSpec_congr {s t : List String} (h : ∀ x, x ∈ s ↔ x ∈ t) :
    ∀ l : List Record, dedupSpec s l = dedupSpec t l := by
  intro l
  induction l generalizing s t with
  | nil => rfl
  | cons p ps ih =>
    by_cases hp : p.publicationNumber ≠ "" ∧ p.publicationNumber ∉ s
    · rw [dedupSpec, if_pos hp, dedupSpec, if_pos ⟨hp.1, fun hm => hp.2 ((h _).mpr hm)⟩]
      refine congrArg _ (ih ?_)
      intro x
      simp only [List.mem_cons]
      exact or_congr Iff.rfl (h x)
    · rw [dedupSpec, if_neg hp, dedupSpec, if_neg ?_, ih h]
      intro hc
      exact hp ⟨hc.1, fun hm => hc.2 ((h _).mp hm)⟩

theorem lookup_eq_none_iff (acc : List (String × Record)) (k : String) :
    acc.lookup k = none ↔ k ∉ acc.map Prod.fst := by
  induction acc with
  | nil => simp [List.lookup]
  | cons q t ih =>
    obtain ⟨k2, r⟩ := q
    by_cases hk : k = k2
    · subst hk
      simp [List.lookup]
    · have hbeq : (k == k2) = false := beq_eq_false_iff_ne.mpr hk
      simp [List.lookup, hbeq, ih, hk]

theorem foldl_insertUnique_eq (l : List Record) :
    ∀ acc : List (String × Record),
      (l.foldl insertUnique acc).map Prod.snd
        = acc.map Prod.snd ++ dedupSpec (acc.map Prod.fst) l := by
  induction l with
  | nil => intro acc; simp [dedupSpec]
  | cons p ps ih =>
    intro acc
    rw [List.foldl_cons]
    by_cases hp : p.publicationNumber ≠ "" ∧ p.publicationNumber ∉ acc.map Prod.fst
    · have hins : insertUnique acc p = acc ++ [(p.publicationNumber, p)] := by
        unfold insertUnique
        rw [if_pos ⟨hp.1, (lookup_eq_none_iff acc _).mpr hp.2⟩]
      rw [hins, ih, dedupSpec, if_pos hp]
      have hcong : dedupSpec ((acc ++ [(p.publicationNumber, p)]).map Prod.fst) ps
          = dedupSpec (p.publicationNumber :: acc.map Prod.fst) ps := by
        refine dedupSpec_congr ?_ ps
        intro x
        simp only [List.map_append, List.mem_append, List.map_cons, List.map_nil,
          List.mem_singleton, List.mem_cons]
        tauto
      rw [hcong]
      simp
    · have hins : insertUnique acc p = acc := by
        unfold insertUnique
        rw [if_neg]
        intro hc
        exact hp ⟨hc.1, (lookup_eq_none_iff acc _).mp hc.2⟩
      rw [hins, ih, dedupSpec, if_neg hp]

/-- `patentsList` computes exactly the spec's deduplication. -/
theorem patentsList_eq_dedupSpec (l : List Record) :
    patentsList l = dedupSpec [] l := by
  have h := foldl_insertUnique_eq l []
  simpa [patentsList, uniquePatents] using h

theorem dedupSpec_sublist (l : List Record) :
    ∀ seen, (dedupSpec seen l).Sublist l := by
  induction l with
  | nil => intro seen; simp [dedupSpec]
  | cons p ps ih =>
    intro seen
    rw [dedupSpec]
    split
    · exact List.Sublist.cons₂ p (ih _)
    · exact List.Sublist.cons p (ih _)

theorem dedupSpec_nodup_and_fresh (l : List Record) :
    ∀ seen, ((dedupSpec seen l).map Record.publicationNumber).Nodup
      ∧ ∀ p ∈ dedupSpec seen l, p.publicationNumber ∉ seen ∧ p.publicationNumber ≠ "" := by
  induction l with
  | nil => intro seen; simp [dedupSpec]
  | cons p ps ih =>
    intro seen
    rw [dedupSpec]
    by_cases hp : p.publicationNumber ≠ "" ∧ p.publicationNumber ∉ seen
    · rw [if_pos hp]
      obtain ⟨hnd, hfresh⟩ := ih (p.publicationNumber :: seen)
      refine ⟨?_, ?_⟩
      · simp only [List.map_cons, List.nodup_cons]
        refine ⟨?_, hnd⟩
        intro hmem
        obtain ⟨q, hq, hqe⟩ := List.mem_map.mp hmem
        have := (hfresh q hq).1
        simp [hqe] at this
      · intro q hq
        rcases List.mem_cons.mp hq with rfl | hq2
        · exact ⟨hp.2, hp.1⟩
        · obtain ⟨hns, hne⟩ := hfresh q hq2
          exact ⟨fun hm => hns (List.mem_cons_of_mem _ hm), hne⟩
    · rw [if_neg hp]
      exact ih seen

theorem dedupSpec_id_of_nodup (l : List Record) :
    ∀ seen, ((l.map Record.publicationNumber).Nodup) →
      (∀ p ∈ l, p.publicationNumber ∉ seen ∧ p.publicationNumber ≠ "") →
      dedupSpec seen l = l := by
  induction l with
  | nil => intro seen _ _; rfl
  | cons p ps ih =>
    intro seen hnd hok
    rw [List.map_cons, List.nodup_cons] at hnd
    obtain ⟨hps, hpe⟩ := hok p (List.mem_cons_self _ _)
    rw [dedupSpec, if_pos ⟨hpe, hps⟩]
    refine congrArg _ (ih _ hnd.2 ?_)
    intro q hq
    obtain ⟨hqs, hqe⟩ := hok q (List.mem_cons_of_mem _ hq)
    refine ⟨?_, hqe⟩
    intro hm
    rcases List.mem_cons.mp hm with he | hm2
    · exact hnd.1 (he ▸ List.mem_map_of_mem Record.publicationNumber hq)
    · exact hqs hm2

theorem dedupSpec_complete (l : List Record) :
    ∀ seen, ∀ p ∈ l, p.publicationNumber ≠ "" → p.publicationNumber ∉ seen →
      ∃ q ∈ dedupSpec seen l, q.publicationNumber = p.publicationNumber := by
  induction l with
  | nil => intro seen p hp; simp at hp
  | cons r rs ih =>
    intro seen p hp hpe hps
    rw [dedupSpec]
    by_cases hr : r.publicationNumber ≠ "" ∧ r.publicationNumber ∉ seen
    · rw [if_pos hr]
      rcases List.mem_cons.mp hp with he | hp2
      · exact ⟨r, List.mem_cons_self _ _, by rw [he]⟩
      · by_cases heq : p.publicationNumber = r.publicationNumber
        · exact ⟨r, List.mem_cons_self _ _, heq.symm⟩
        · obtain ⟨q, hq, hqe⟩ := ih (r.publicationNumber :: seen) p hp2 hpe
            (by
              intro hm
              rcases List.mem_cons.mp hm with he | hm2
              · exact heq he
              · exact hps hm2)
          exact ⟨q, List.mem_cons_of_mem _ hq, hqe⟩
    · rw [if_neg hr]
      rcases List.mem_cons.mp hp with rfl | hp2
      · exact absurd ⟨hpe, hps⟩ hr
      · exact ih seen p hp2 hpe hps

theorem dedupSpec_first (l : List Record) :
    ∀ seen, ∀ p ∈ dedupSpec seen l,
      l.find? (fun q => q.publicationNumber == p.publicationNumber) = some p := by
  induction l with
  | nil => intro seen p hp; simp [dedupSpec] at hp
  | cons r rs ih =>
    intro seen p hp
    rw [dedupSpec] at hp
    by_cases hr : r.publicationNumber ≠ "" ∧ r.publicationNumber ∉ seen
    · rw [if_pos hr] at hp
      rcases List.mem_cons.mp hp with rfl | hp2
      · rw [List.find?_cons_of_pos]
        simp
      · have hfresh := (dedupSpec_nodup_and_fresh rs (r.publicationNumber :: seen)).2 p hp2
        have hne : p.publicationNumber ≠ r.publicationNumber := by
          intro he
          exact hfresh.1 (he ▸ List.mem_cons_self _ _)
        rw [List.find?_cons_of_neg]
        · exact ih _ p hp2
        · simp
          intro hc
          exact hne hc.symm
    · rw [if_neg hr] at hp
      have hfresh := (dedupSpec_nodup_and_fresh rs seen).2 p hp
      have hne : r.publicationNumber ≠ p.publicationNumber := by
        intro he
        rcases not_and_or.mp hr with hre | hrs
        · exact hfresh.2 (by simpa [he] using hre)
        · exact hfresh.1 (he ▸ not_not.mp hrs)
      rw [List.find?_cons_of_neg]
      · exact ih _ p hp
      · simpa using hne

/-- C3: for every ordered input sequence of records, deduplication returns
the subsequence consisting of, for each distinct non-empty publication
identifier, exactly the first record bearing that identifier, in
first-occurrence order; records whose identifier is missing or empty are
dropped; hence output length is at most input length, output identifiers
are pairwise distinct, and deduplication is idempotent. -/
theorem dedup_correct (l : List Record) :
    patentsList l = dedupSpec [] l
    ∧ (patentsList l).Sublist l
    ∧ (patentsList l).length ≤ l.length
    ∧ ((patentsList l).map Record.publicationNumber).Nodup
    ∧ (∀ p ∈ patentsList l, p.publicationNumber ≠ ""
        ∧ l.find? (fun q => q.publicationNumber == p.publicationNumber) = some p)
    ∧ (∀ p ∈ l, p.publicationNumber ≠ "" →
        ∃ q ∈ patentsList l, q.publicationNumber = p.publicationNumber)
    ∧ patentsList (patentsList l) = patentsList l := by
  have hd := patentsList_eq_dedupSpec l
  have hsub : (patentsList l).Sublist l := by
    rw [hd]; exact dedupSpec_sublist l []
  have hnf := dedupSpec_nodup_and_fresh l []
  refine ⟨hd, hsub, hsub.length_le, by rw [hd]; exact hnf.1, ?_, ?_, ?_⟩
  · intro p hp
    rw [hd] at hp
    exact ⟨(hnf.2 p hp).2, dedupSpec_first l [] p hp⟩
  · intro p hp hpe
    rw [hd]
    exact dedupSpec_complete l [] p hp hpe (by simp)
  · calc patentsList (patentsList l) = dedupSpec [] (dedupSpec [] l) := by
          rw [patentsList_eq_dedupSpec, hd]
    _ = dedupSpec [] l := dedupSpec_id_of_nodup _ [] hnf.1 hnf.2
    _ = patentsList l := hd.symm

/-! ## Statistics aggregation (lines 153-185) -/

/-- `d[k] = d.get(k, 0) + 1` on a Python dict embedded as an
insertion-ordered association list: update the existing entry in place,
or append a fresh key with count 1. -/
def bump : List (String × Nat) → String → List (String × Nat)
  | [], k => [(k, 1)]
  | (k2, n) :: t, k => if k2 = k then (k2, n + 1) :: t else (k2, n) :: bump t k

/-- The count a frequency table holds for key `k` (0 when absent). -/
def getCount (t : List (String × Nat)) (k : String) : Nat :=
  (t.lookup k).getD 0

/-- The sum of all counts in a frequency table. -/
def sumVals (t : List (String × Nat)) : Nat :=
  (t.map Prod.snd).sum

/-- The `por_pais` loop (lines 162-166): a record contributes to the
country table when its `publicationNumber` is truthy and has length at
least 2; the key is its first two characters. -/
def porPais (l : List Record) : List (String × Nat) :=
  l.foldl
    (fun t p =>
      if p.publicationNumber ≠ "" ∧ 2 ≤ p.publicationNumber.length then
        bump t (p.publicationNumber.take 2)
      else t)
    []

/-- The `por_ano` loop (lines 169-173). -/
def porAno (l : List Record) : List (String × Nat) :=
  l.foldl
    (fun t p =>
      if p.publicationDate ≠ "" ∧ 4 ≤ p.publicationDate.length then
        bump t (p.publicationDate.take 4)
      else t)
    []

/-- The `top_applicants` loop (lines 176-179). -/
def topApplicants (l : List Record) : List (String × Nat) :=
  l.foldl (fun t p => p.applicants.foldl (fun u a => if a ≠ "" then bump u a else u) t) []

/-- The `top_inventors` loop (lines 182-185). -/
def topInventors (l : List Record) : List (String × Nat) :=
  l.foldl (fun t p => p.inventors.foldl (fun u i => if i ≠ "" then bump u i else u) t) []

/-- The `stats` dict after lines 153-185. -/
def statsOf (l : List Record) : Stats :=
  { por_pais := porPais l
    por_ano := porAno l
    top_applicants := topApplicants l
    top_inventors := topInventors l }

theorem lookup_cons_ne {β : Type} (k k3 : String) (x : β) (t : List (String × β))
    (h : k ≠ k3) : List.lookup k ((k3, x) :: t) = List.lookup k t := by
  simp [List.lookup, beq_eq_false_iff_ne.mpr h]

theorem lookup_cons_self {β : Type} (k : String) (x : β) (t : List (String × β)) :
    List.lookup k ((k, x) :: t) = some x := by
  simp [List.lookup]

theorem getCount_cons_ne (k k3 : String) (n : Nat) (t : List (String × Nat))
    (h : k ≠ k3) : getCount ((k3, n) :: t) k = getCount t k := by
  unfold getCount
  rw [lookup_cons_ne _ _ _ _ h]

theorem getCount_cons_self (k : String) (n : Nat) (t : List (String × Nat)) :
    getCount ((k, n) :: t) k = n := by
  unfold getCount
  rw [lookup_cons_self]
  rfl

theorem sumVals_cons (k : String) (n : Nat) (t : List (String × Nat)) :
    sumVals ((k, n) :: t) = n + sumVals t := by
  simp [sumVals]

theorem getCount_bump (t : List (String × Nat)) (k k2 : String) :
    getCount (bump t k) k2 = getCount t k2 + (if k2 = k then 1 else 0) := by
  induction t with
  | nil =>
    by_cases h : k2 = k
    · subst h
      rw [bump, getCount_cons_self]
      simp [getCount, List.lookup]
    · rw [bump, getCount_cons_ne _ _ _ _ h]
      simp [getCount, List.lookup, h]
  | cons q t ih =>
    obtain ⟨k3, n⟩ := q
    by_cases h3 : k3 = k
    · subst h3
      rw [show bump ((k3, n) :: t) k3 = (k3, n + 1) :: t by simp [bump]]
      by_cases h2 : k2 = k3
      · subst h2
        rw [getCount_cons_self, getCount_cons_self, if_pos rfl]
      · rw [getCount_cons_ne _ _ _ _ h2, getCount_cons_ne _ _ _ _ h2, if_neg h2]
        omega
    · rw [show bump ((k3, n) :: t) k = (k3, n) :: bump t k by simp [bump, h3]]
      by_cases h2 : k2 = k3
      · subst h2
        rw [getCount_cons_self, getCount_cons_self, if_neg h3]
        omega
      · rw [getCount_cons_ne _ _ _ _ h2, getCount_cons_ne _ _ _ _ h2, ih]

theorem sumVals_bump (t : List (String × Nat)) (k : String) :
    sumVals (bump t k) = sumVals t + 1 := by
  induction t with
  | nil => simp [bump, sumVals]
  | cons q t ih =>
    obtain ⟨k3, n⟩ := q
    by_cases h3 : k3 = k
    · rw [show bump ((k3, n) :: t) k = (k3, n + 1) :: t by simp [bump, h3],
        sumVals_cons, sumVals_cons]
      omega
    · rw [show bump ((k3, n) :: t) k = (k3, n) :: bump t k by simp [bump, h3],
        sumVals_cons, sumVals_cons, ih]
      omega

theorem porPais_foldl_getCount (l : List Record) (k : String) :
    ∀ t, getCount
        (l.foldl
          (fun u p =>
            if p.publicationNumber ≠ "" ∧ 2 ≤ p.publicationNumber.length then
              bump u (p.publicationNumber.take 2)
            else u)
          t) k
      = getCount t k
        + l.countP (fun p =>
            decide (2 ≤ p.publicationNumber.length) && (p.publicationNumber.take 2 == k)) := by
  induction l with
  | nil => intro t; simp
  | cons p ps ih =>
    intro t
    rw [List.foldl_cons, List.countP_cons, ih]
    by_cases hlen : 2 ≤ p.publicationNumber.length
    · have hne : p.publicationNumber ≠ "" := by
        intro he
        rw [he] at hlen
        simp [String.length] at hlen
      rw [if_pos ⟨hne, hlen⟩, getCount_bump]
      by_cases hk : p.publicationNumber.take 2 = k
      · simp [hlen, hk]
        omega
      · have hbeq : (p.publicationNumber.take 2 == k) = false := beq_eq_false_iff_ne.mpr hk
        have hk2 : ¬k = p.publicationNumber.take 2 := fun he => hk he.symm
        simp [hlen, hbeq, hk2]
    · rw [if_neg (by intro hc; exact hlen hc.2)]
      simp [hlen]

theorem porPais_foldl_sumVals (l : List Record) :
    ∀ t, sumVals
        (l.foldl
          (fun u p =>
            if p.publicationNumber ≠ "" ∧ 2 ≤ p.publicationNumber.length then
              bump u (p.publicationNumber.take 2)
            else u)
          t)
      = sumVals t + l.countP (fun p => decide (2 ≤ p.publicationNumber.length)) := by
  induction l with
  | nil => intro t; simp
  | cons p ps ih =>
    intro t
    rw [List.foldl_cons, List.countP_cons, ih]
    by_cases hlen : 2 ≤ p.publicationNumber.length
    · have hne : p.publicationNumber ≠ "" := by
        intro he
        rw [he] at hlen
        simp [String.length] at hlen
      rw [if_pos ⟨hne, hlen⟩, sumVals_bump]
      simp [hlen]
      omega
    · rw [if_neg (by intro hc; exact hlen hc.2)]
      simp [hlen]

/-- C7: the country table maps each two-character identifier key to the
number of records whose identifier begins with those two characters
(records with identifier shorter than 2 characters excluded), and the sum
of its counts equals the number of records whose identifier has length at
least 2. -/
theorem porPais_correct (l : List Record) :
    (∀ k, getCount (porPais l) k
        = l.countP (fun p =>
            decide (2 ≤ p.publicationNumber.length) && (p.publicationNumber.take 2 == k)))
    ∧ sumVals (porPais l)
        = l.countP (fun p => decide (2 ≤ p.publicationNumber.length)) := by
  constructor
  · intro k
    have h := porPais_foldl_getCount l k []
    simpa [porPais, getCount, List.lookup] using h
  · have h := porPais_foldl_sumVals l []
    simpa [porPais, sumVals] using h

/-! ## Per-run storage namespace (lines 82-85, 193, 212) -/

/-- `pasta_resultados = Path("resultados") / f"patentscope_{request.term}_{timestamp}"`
(line 84), rendered with the POSIX path separator. -/
def runFolder (term ts : String) : String :=
  "resultados/patentscope_" ++ term ++ "_" ++ ts

/-- One submitted run: the fresh `task_id` generated at line 263 together
with the request's term and the `strftime("%Y%m%d_%H%M%S")` timestamp the
worker takes at line 83. -/
structure Run where
  taskId : String
  term : String
  timestamp : String
deriving DecidableEq, Repr

/-- The storage namespace a run's artifacts are written under. -/
def Run.folder (r : Run) : String :=
  runFolder r.term r.timestamp

theorem append_fixed_inj (A u t1 t2 s1 s2 : List Char)
    (hlen : s1.length = s2.length)
    (h : A ++ (t1 ++ (u ++ s1)) = A ++ (t2 ++ (u ++ s2))) : t1 = t2 ∧ s1 = s2 := by
  have h1 := List.append_cancel_left h
  have h2 := List.append_inj' h1 (by simp [hlen])
  exact ⟨h2.1, List.append_cancel_left h2.2⟩

theorem runFolder_inj (term1 ts1 term2 ts2 : String)
    (h1 : ts1.length = 15) (h2 : ts2.length = 15)
    (h : runFolder term1 ts1 = runFolder term2 ts2) : term1 = term2 ∧ ts1 = ts2 := by
  have hd : "resultados/patentscope_".data ++ (term1.data ++ ("_".data ++ ts1.data))
      = "resultados/patentscope_".data ++ (term2.data ++ ("_".data ++ ts2.data)) := by
    have hc := congrArg String.data h
    simpa [runFolder, String.data_append] using hc
  have hl : ts1.data.length = ts2.data.length := by
    have e1 : ts1.data.length = 15 := h1
    have e2 : ts2.data.length = 15 := h2
    rw [e1, e2]
  obtain ⟨he, hs⟩ := append_fixed_inj _ _ _ _ _ _ hl hd
  exact ⟨String.ext he, String.ext hs⟩

/-- C8 counterexample: two distinct runs (different task identifiers,
hence different runs) submitted with the same search term in the same
timestamp second derive the same storage namespace, refuting the claim
that the namespaces of every pair of distinct runs are distinct. -/
theorem run_namespace_collision :
    (⟨"7d1f", "aspirin", "20251012_120000"⟩ : Run) ≠ ⟨"9a2c", "aspirin", "20251012_120000"⟩
    ∧ Run.folder ⟨"7d1f", "aspirin", "20251012_120000"⟩
        = Run.folder ⟨"9a2c", "aspirin", "20251012_120000"⟩ :=
  ⟨by decide, rfl⟩

/-- C8 amended: two runs whose search terms differ or whose submission
timestamps (fixed-width 15-character `%Y%m%d_%H%M%S` stamps) differ derive
distinct storage namespaces; only runs sharing both the term and the
timestamp second can collide. -/
theorem run_namespace_inj (r1 r2 : Run)
    (hl1 : r1.timestamp.length = 15) (hl2 : r2.timestamp.length = 15)
    (hne : r1.term ≠ r2.term ∨ r1.timestamp ≠ r2.timestamp) :
    Run.folder r1 ≠ Run.folder r2 := by
  intro h
  obtain ⟨ht, hs⟩ := runFolder_inj _ _ _ _ hl1 hl2 h
  rcases hne with hne | hne
  · exact hne ht
  · exact hne hs

/-- C8 amended claim, checked at two concrete runs differing in term. -/
theorem run_namespace_inj_witness :
    Run.folder ⟨"a1", "aspirin", "20251012_120000"⟩
      ≠ Run.folder ⟨"b2", "ibuprofen", "20251012_120000"⟩ :=
  run_namespace_inj ⟨"a1", "aspirin", "20251012_120000"⟩ ⟨"b2", "ibuprofen", "20251012_120000"⟩
    (by decide) (by decide) (Or.inl (by decide))

/-! ## The worker (`execute_search`, lines 68-232) -/

/-- The summary dict (lines 198-210). -/
structure Summary where
  search_info : SearchInfo
  statistics : Stats
  patents : List Record
deriving DecidableEq, Repr

/-- Outcomes of the external collaborators the worker calls: the two
scraper searches (term, country, limit), the detail enrichment (records,
optional cap) and the two JSON writes (path, data); `.error msg` stands
for the Python call raising with message `msg`.  `timestamp` is the
`strftime` value of line 83 and `isoNow` the `isoformat()` of line 201. -/
structure Env where
  searchCountry : String → String → Nat → Except String (List Record)
  searchSimple : String → Nat → Except String (List Record)
  enrich : List Record → Option Nat → Except String (List Record)
  writeGrouped : String → List (String × List Record) → Except String Unit
  writeSummary : String → Summary → Except String Unit
  timestamp : String
  isoNow : String

/-- `p['pais_filtro'] = pais` over one country batch (lines 105-106). -/
def tagCountry (c : String) (ps : List Record) : List Record :=
  ps.map fun p => { p with pais_filtro := some c }

/-- Insertion into one bucket of a grouped mapping. -/
def addBucket : List (String × List Record) → String → Record → List (String × List Record)
  | [], k, p => [(k, [p])]
  | (k2, ps) :: t, k, p =>
    if k2 = k then (k2, ps ++ [p]) :: t else (k2, ps) :: addBucket t k p

/-- Modelled from the spec: the repository function
`agrupar_por_publication_number` (imported from `patentscope_detalhes`,
which is not under `src/`) maps each publication identifier to the list
of all records sharing it, preserving within-bucket insertion order. -/
def agrupar (l : List Record) : List (String × List Record) :=
  l.foldl (fun acc p => addBucket acc p.publicationNumber p) []

/-- The per-run namespace the worker derives at lines 83-84. -/
def runFolderOf (req : SearchRequest) (env : Env) : String :=
  runFolder req.term env.timestamp

/-- `json_file` (line 193). -/
def jsonFileOf (req : SearchRequest) (env : Env) : String :=
  runFolderOf req env ++ "/patents_complete.json"

/-- `summary_file` (line 212). -/
def summaryFileOf (req : SearchRequest) (env : Env) : String :=
  runFolderOf req env ++ "/summary_with_stats.json"

/-- The `search_info` block (lines 199-207): `allLen` is `len(all_patents)`
and `uniLen` is `len(patents_list)` at that point. -/
def searchInfoOf (req : SearchRequest) (env : Env) (allLen uniLen : Nat) : SearchInfo :=
  { termo := req.term
    data_busca := env.isoNow
    total_encontrado := allLen
    total_unico := uniLen
    paises_filtro := req.countries
    limite := req.limit
    detalhes_completos := req.get_details }

/-- The summary written to `summary_with_stats.json` (lines 198-210). -/
def summaryOf (req : SearchRequest) (env : Env) (allLen : Nat) (pl2 : List Record) : Summary :=
  { search_info := searchInfoOf req env allLen pl2.length
    statistics := statsOf pl2
    patents := pl2 }

/-- The completed result payload (lines 218-227): first 10 records inline. -/
def fullPayload (req : SearchRequest) (env : Env) (allLen : Nat) (pl2 : List Record) :
    ResultPayload :=
  .full (searchInfoOf req env allLen pl2.length) (statsOf pl2) pl2.length (pl2.take 10)
    ⟨jsonFileOf req env, summaryFileOf req env⟩

/-- The `except` handler (lines 229-232): the status is set to `failed`,
then the error message is recorded. -/
def failTrace (t : Task) (e : String) : List Task :=
  [{ t with status := .failed }, { t with status := .failed, error := some e }]

/-- Lines 137-151: optional detail enrichment.  Returns the snapshots it
adds, the task state afterwards, and the (possibly replaced) record list;
an enrichment failure is recorded in the progress message only and the
input list is kept. -/
def enrichStep (req : SearchRequest) (env : Env) (t : Task) (pl : List Record) :
    List Task × Task × List Record :=
  if req.get_details ∧ 0 < pl.length then
    let tD := { t with progress := some "Retrieving complete details..." }
    match env.enrich pl req.max_details with
    | .ok pl2 => ([tD], tD, pl2)
    | .error e =>
      let tD2 := { tD with progress := some ("Error retrieving details: " ++ e) }
      ([tD, tD2], tD2, pl)
  else ([], t, pl)

/-- Lines 188-227: the save-progress note, the grouped-dataset write, the
summary write, then the transition to `completed` with the result payload;
a write failure falls through to the `except` handler. -/
def persistAndFinish (req : SearchRequest) (env : Env) (t : Task)
    (allLen : Nat) (pl2 : List Record) : List Task :=
  let tS := { t with progress := some "Saving results..." }
  match env.writeGrouped (jsonFileOf req env) (agrupar pl2) with
  | .error e => tS :: failTrace tS e
  | .ok _ =>
    match env.writeSummary (summaryFileOf req env) (summaryOf req env allLen pl2) with
    | .error e => tS :: failTrace tS e
    | .ok _ =>
      let tC := { tS with status := .completed }
      [tS, tC, { tC with result := some (fullPayload req env allLen pl2) }]

/-- Lines 116-227 once `all_patents` is gathered: deduplication, the
empty-result early return (lines 128-135), enrichment, statistics,
grouping, persistence and completion. -/
def afterSearch (req : SearchRequest) (env : Env) (t : Task) (allP : List Record) :
    List Task :=
  let pl := patentsList allP
  let tA := { t with progress := some ("Found " ++ toString pl.length ++ " unique patents") }
  if pl.length = 0 then
    let tB := { tA with status := .completed }
    [tA, tB, { tB with result := some (.empty "No patents found" 0 []) }]
  else
    let r := enrichStep req env tA pl
    tA :: (r.1 ++ persistAndFinish req env r.2.1 allP.length r.2.2)

/-- The per-country search loop (lines 92-109): a progress snapshot then
the scraper call for each country; a raise propagates out of the loop. -/
def countryLoop (env : Env) (term : String) (lim : Nat) :
    Task → List Record → List String → List Task × Task × Except String (List Record)
  | t, acc, [] => ([], t, .ok acc)
  | t, acc, c :: cs =>
    let t2 := { t with progress := some ("Searching in " ++ c ++ "...") }
    match env.searchCountry term c lim with
    | .error e => ([t2], t2, .error e)
    | .ok ps =>
      let r := countryLoop env term lim t2 (acc ++ tagCountry c ps) cs
      (t2 :: r.1, r.2.1, r.2.2)

/-- The record accumulation of the country loop, without the registry
snapshots: each country is searched once with the request's full limit
and the tagged batches are concatenated in order. -/
def gather (env : Env) (term : String) (lim : Nat) :
    List Record → List String → Except String (List Record)
  | acc, [] => .ok acc
  | acc, c :: cs =>
    match env.searchCountry term c lim with
    | .error e => .error e
    | .ok ps => gather env term lim (acc ++ tagCountry c ps) cs

/-- The outcome of the search stage (lines 92-114): one scraper call per
country when `request.countries` is truthy (a non-empty list), otherwise
one simple search. -/
def searchOutcome (req : SearchRequest) (env : Env) : Except String (List Record) :=
  match req.countries with
  | some (c :: cs) => gather env req.term req.limit [] (c :: cs)
  | _ => env.searchSimple req.term req.limit

/-- The snapshot after `tasks[task_id]["status"] = "running"` (line 72). -/
def snapRunning : Task := { initTask with status := .running }

/-- The snapshot after the line-73 progress assignment. -/
def snapInit : Task := { snapRunning with progress := some "Initializing scraper..." }

/-- The snapshot after the line-87 progress assignment. -/
def snapTerm (term : String) : Task :=
  { snapInit with progress := some ("Searching patents for term: " ++ term) }

/-- The snapshot after the line-113 progress assignment. -/
def snapGeneral (term : String) : Task :=
  { snapTerm term with progress := some "Executing general search..." }

/-- Every state `tasks[task_id]` passes through during `execute_search`,
one snapshot per registry mutation, in order. -/
def executeSearchTrace (req : SearchRequest) (env : Env) : List Task :=
  match req.countries with
  | some (c :: cs) =>
    let r := countryLoop env req.term req.limit (snapTerm req.term) [] (c :: cs)
    snapRunning :: snapInit :: snapTerm req.term :: (r.1 ++
      match r.2.2 with
      | .error e => failTrace r.2.1 e
      | .ok allP => afterSearch req env r.2.1 allP)
  | _ =>
    match env.searchSimple req.term req.limit with
    | .error e =>
      snapRunning :: snapInit :: snapTerm req.term :: snapGeneral req.term
        :: failTrace (snapGeneral req.term) e
    | .ok allP =>
      snapRunning :: snapInit :: snapTerm req.term :: snapGeneral req.term
        :: afterSearch req env (snapGeneral req.term) allP

/-- The whole registry history of one task: creation in `queued` by the
submission handler, followed by the worker's mutations. -/
def taskTrace (req : SearchRequest) (env : Env) : List Task :=
  initTask :: executeSearchTrace req env

/-- The task registry entry once the worker has returned. -/
def finalTask (req : SearchRequest) (env : Env) : Task :=
  (executeSearchTrace req env).getLastD initTask

/-- Collapse consecutive equal statuses: the sequence of distinct statuses
an observer polling the registry sees, in order. -/
def squash : List Status → List Status
  | [] => []
  | [s] => [s]
  | s :: s2 :: r => if s = s2 then squash (s2 :: r) else s :: squash (s2 :: r)

/-! ## Trace structure lemmas -/

theorem getLastD_irrel {α : Type} (l : List α) (h : l ≠ []) (d d2 : α) :
    l.getLastD d = l.getLastD d2 := by
  cases l with
  | nil => exact absurd rfl h
  | cons a l => rw [List.getLastD_cons, List.getLastD_cons]

theorem getLastD_append_right {α : Type} (l1 l2 : List α) (d : α) (h : l2 ≠ []) :
    (l1 ++ l2).getLastD d = l2.getLastD d := by
  induction l1 generalizing d with
  | nil => rfl
  | cons a l ih =>
    rw [List.cons_append, List.getLastD_cons, ih a, getLastD_irrel l2 h a d]

theorem getLastD_append_pair {α : Type} (l : List α) (tp tf d : α) :
    (l ++ [tp, tf]).getLastD d = tf := by
  rw [getLastD_append_right l [tp, tf] d (by simp)]
  rw [List.getLastD_cons, List.getLastD_cons]
  rfl

theorem countryLoop_snaps (env : Env) (term : String) (lim : Nat) :
    ∀ (cs : List String) (t : Task) (acc : List Record),
      (∀ u ∈ (countryLoop env term lim t acc cs).1,
          u.status = t.status ∧ u.result = t.result ∧ u.error = t.error)
      ∧ (countryLoop env term lim t acc cs).2.1.status = t.status
      ∧ (countryLoop env term lim t acc cs).2.1.result = t.result
      ∧ (countryLoop env term lim t acc cs).2.1.error = t.error := by
  intro cs
  induction cs with
  | nil =>
    intro t acc
    simp [countryLoop]
  | cons c cs ih =>
    intro t acc
    cases hsc : env.searchCountry term c lim with
    | error e =>
      simp [countryLoop, hsc]
    | ok ps =>
      simp only [countryLoop, hsc]
      obtain ⟨hmem, hs, hr, he⟩ :=
        ih { t with progress := some ("Searching in " ++ c ++ "...") }
          (acc ++ tagCountry c ps)
      refine ⟨?_, hs, hr, he⟩
      intro u hu
      rcases List.mem_cons.mp hu with he2 | hu2
      · rw [he2]
        exact ⟨rfl, rfl, rfl⟩
      · exact hmem u hu2

theorem countryLoop_res (env : Env) (term : String) (lim : Nat) :
    ∀ (cs : List String) (t : Task) (acc : List Record),
      (countryLoop env term lim t acc cs).2.2 = gather env term lim acc cs := by
  intro cs
  induction cs with
  | nil => intro t acc; rfl
  | cons c cs ih =>
    intro t acc
    cases hsc : env.searchCountry term c lim with
    | error e => simp [countryLoop, gather, hsc]
    | ok ps => simp [countryLoop, gather, hsc, ih]

theorem countryLoop_congr (env env2 : Env) (term : String) (lim : Nat)
    (h : env2.searchCountry = env.searchCountry) :
    ∀ (cs : List String) (t : Task) (acc : List Record),
      countryLoop env2 term lim t acc cs = countryLoop env term lim t acc cs := by
  intro cs
  induction cs with
  | nil => intro t acc; rfl
  | cons c cs ih =>
    intro t acc
    cases hsc : env.searchCountry term c lim with
    | error e => simp [countryLoop, h, hsc]
    | ok ps => simp [countryLoop, h, hsc, ih]

theorem gather_congr (env env2 : Env) (term : String) (lim : Nat)
    (h : env2.searchCountry = env.searchCountry) :
    ∀ (cs : List String) (acc : List Record),
      gather env2 term lim acc cs = gather env term lim acc cs := by
  intro cs
  induction cs with
  | nil => intro acc; rfl
  | cons c cs ih =>
    intro acc
    cases hsc : env.searchCountry term c lim with
    | error e => simp [gather, h, hsc]
    | ok ps => simp [gather, h, hsc, ih]

theorem enrichStep_snaps (req : SearchRequest) (env : Env) (t : Task) (pl : List Record) :
    (∀ u ∈ (enrichStep req env t pl).1,
        u.status = t.status ∧ u.result = t.result ∧ u.error = t.error)
    ∧ (enrichStep req env t pl).2.1.status = t.status
    ∧ (enrichStep req env t pl).2.1.result = t.result
    ∧ (enrichStep req env t pl).2.1.error = t.error := by
  unfold enrichStep
  by_cases hc : req.get_details ∧ 0 < pl.length
  · rw [if_pos hc]
    cases env.enrich pl req.max_details with
    | ok pl2 =>
      constructor
      · intro u hu
        rcases List.mem_cons.mp hu with he2 | hu2
        · rw [he2]; exact ⟨rfl, rfl, rfl⟩
        · simp at hu2
      · exact ⟨rfl, rfl, rfl⟩
    | error e =>
      constructor
      · intro u hu
        rcases List.mem_cons.mp hu with he2 | hu2
        · rw [he2]; exact ⟨rfl, rfl, rfl⟩
        · rcases List.mem_cons.mp hu2 with he3 | hu3
          · rw [he3]; exact ⟨rfl, rfl, rfl⟩
          · simp at hu3
      · exact ⟨rfl, rfl, rfl⟩
  · rw [if_neg hc]
    exact ⟨by intro u hu; simp at hu, rfl, rfl, rfl⟩

theorem persistAndFinish_split (req : SearchRequest) (env : Env) (t : Task)
    (allLen : Nat) (pl2 : List Record)
    (ht : t.status = .running) (hr : t.result = none) (he : t.error = none) :
    ∃ body tp tf, persistAndFinish req env t allLen pl2 = body ++ [tp, tf]
      ∧ (∀ u ∈ body, u.status = .running ∧ u.result = none ∧ u.error = none)
      ∧ tp.status = tf.status
      ∧ ((tf.status = .completed
            ∧ tf.result = some (fullPayload req env allLen pl2) ∧ tf.error = none)
          ∨ (∃ m, tf.status = .failed ∧ tf.result = none ∧ tf.error = some m)) := by
  obtain ⟨ts, tpg, trr, terr⟩ := t
  simp only at ht hr he
  subst ht; subst hr; subst he
  unfold persistAndFinish failTrace
  cases hw1 : env.writeGrouped (jsonFileOf req env) (agrupar pl2) with
  | error e =>
    exact ⟨[_], _, _, rfl, by intro u hu; simp at hu; rw [hu]; exact ⟨rfl, rfl, rfl⟩,
      rfl, Or.inr ⟨e, rfl, rfl, rfl⟩⟩
  | ok u1 =>
    cases hw2 : env.writeSummary (summaryFileOf req env) (summaryOf req env allLen pl2) with
    | error e =>
      exact ⟨[_], _, _, rfl, by intro u hu; simp at hu; rw [hu]; exact ⟨rfl, rfl, rfl⟩,
        rfl, Or.inr ⟨e, rfl, rfl, rfl⟩⟩
    | ok u2 =>
      exact ⟨[_], _, _, rfl, by intro u hu; simp at hu; rw [hu]; exact ⟨rfl, rfl, rfl⟩,
        rfl, Or.inl ⟨rfl, rfl, rfl⟩⟩

theorem found_zero_string :
    "Found " ++ toString (0 : Nat) ++ " unique patents" = "Found 0 unique patents" := by
  decide

theorem afterSearch_empty (req : SearchRequest) (env : Env) (t : Task) (allP : List Record)
    (hemp : patentsList allP = []) :
    afterSearch req env t allP
      = [{ t with progress := some "Found 0 unique patents" },
         { t with progress := some "Found 0 unique patents", status := .completed },
         { t with
           progress := some "Found 0 unique patents"
           status := .completed
           result := some (.empty "No patents found" 0 []) }] := by
  unfold afterSearch
  rw [hemp]
  simp only [List.length_nil, eq_self_iff_true, if_true, found_zero_string]

theorem afterSearch_ne_nil (req : SearchRequest) (env : Env) (t : Task) (allP : List Record) :
    afterSearch req env t allP ≠ [] := by
  unfold afterSearch
  dsimp only
  split
  · simp
  · simp

theorem afterSearch_split (req : SearchRequest) (env : Env) (t : Task) (allP : List Record)
    (ht : t.status = .running) (hr : t.result = none) (he : t.error = none) :
    ∃ body tp tf, afterSearch req env t allP = body ++ [tp, tf]
      ∧ body ≠ []
      ∧ (∀ u ∈ body, u.status = .running ∧ u.result = none ∧ u.error = none)
      ∧ tp.status = tf.status
      ∧ ((∃ p, tf.status = .completed ∧ tf.result = some p ∧ tf.error = none
            ∧ (patentsList allP = [] → p = .empty "No patents found" 0 [])
            ∧ (patentsList allP ≠ [] → ∃ i s n ps f, p = .full i s n ps f))
          ∨ (∃ m, tf.status = .failed ∧ tf.result = none ∧ tf.error = some m)) := by
  by_cases hz : patentsList allP = []
  · rw [afterSearch_empty req env t allP hz]
    refine ⟨[{ t with progress := some "Found 0 unique patents" }],
      { t with progress := some "Found 0 unique patents", status := .completed },
      { t with
        progress := some "Found 0 unique patents"
        status := .completed
        result := some (.empty "No patents found" 0 []) }, rfl, by simp, ?_, rfl, ?_⟩
    · intro u hu
      simp only [List.mem_singleton] at hu
      rw [hu]
      exact ⟨ht, hr, he⟩
    · exact Or.inl ⟨_, rfl, rfl, he, fun _ => rfl, fun hne => absurd hz hne⟩
  · have hzl : ¬(patentsList allP).length = 0 := by
      intro hc
      exact hz (List.length_eq_zero.mp hc)
    unfold afterSearch
    dsimp only
    rw [if_neg hzl]
    obtain ⟨hmemE, hsE, hrE, heE⟩ := enrichStep_snaps req env
      { t with progress := some ("Found " ++ toString (patentsList allP).length
          ++ " unique patents") } (patentsList allP)
    obtain ⟨bodyP, tp, tf, heqP, hbodyP, htpP, htermP⟩ :=
      persistAndFinish_split req env
        (enrichStep req env
          { t with progress := some ("Found " ++ toString (patentsList allP).length
              ++ " unique patents") } (patentsList allP)).2.1
        allP.length
        (enrichStep req env
          { t with progress := some ("Found " ++ toString (patentsList allP).length
              ++ " unique patents") } (patentsList allP)).2.2
        (hsE.trans ht) (hrE.trans hr) (heE.trans he)
    refine ⟨{ t with progress := some ("Found " ++ toString (patentsList allP).length
          ++ " unique patents") }
        :: ((enrichStep req env
          { t with progress := some ("Found " ++ toString (patentsList allP).length
              ++ " unique patents") } (patentsList allP)).1 ++ bodyP),
      tp, tf, ?_, by simp, ?_, htpP, ?_⟩
    · rw [heqP]
      simp [List.append_assoc]
    · intro u hu
      rcases List.mem_cons.mp hu with he2 | hu2
      · rw [he2]
        exact ⟨ht, hr, he⟩
      rcases List.mem_append.mp hu2 with hu3 | hu3
      · obtain ⟨h1, h2, h3⟩ := hmemE u hu3
        exact ⟨h1.trans ht, h2.trans hr, h3.trans he⟩
      · exact hbodyP u hu3
    · rcases htermP with ⟨h1, h2, h3⟩ | hfail
      · exact Or.inl ⟨_, h1, h2, h3, fun hemp => absurd hemp hz,
          fun _ => ⟨_, _, _, _, _, rfl⟩⟩
      · exact Or.inr hfail

theorem trace_split (req : SearchRequest) (env : Env) :
    ∃ body tp tf, executeSearchTrace req env = body ++ [tp, tf]
      ∧ body ≠ []
      ∧ (∀ u ∈ body, u.status = .running ∧ u.result = none ∧ u.error = none)
      ∧ tp.status = tf.status
      ∧ ((∃ p, tf.status = .completed ∧ tf.result = some p ∧ tf.error = none)
          ∨ (∃ m, tf.status = .failed ∧ tf.result = none ∧ tf.error = some m)) := by
  unfold executeSearchTrace
  cases hc : req.countries with
  | none =>
    cases hss : env.searchSimple req.term req.limit with
    | error e =>
      refine ⟨[snapRunning, snapInit, snapTerm req.term, snapGeneral req.term],
        { snapGeneral req.term with status := .failed },
        { snapGeneral req.term with status := .failed, error := some e },
        rfl, by simp, ?_, rfl, Or.inr ⟨e, rfl, rfl, rfl⟩⟩
      intro u hu
      simp only [List.mem_cons, List.not_mem_nil, or_false] at hu
      rcases hu with h | h | h | h <;> rw [h] <;> exact ⟨rfl, rfl, rfl⟩
    | ok allP =>
      obtain ⟨bodyA, tp, tf, heqA, hneA, hmemA, htpA, htermA⟩ :=
        afterSearch_split req env (snapGeneral req.term) allP rfl rfl rfl
      refine ⟨snapRunning :: snapInit :: snapTerm req.term :: snapGeneral req.term :: bodyA,
        tp, tf, ?_, by simp, ?_, htpA, ?_⟩
      · dsimp only
        rw [heqA]
        simp
      · intro u hu
        rcases List.mem_cons.mp hu with h | hu2
        · rw [h]; exact ⟨rfl, rfl, rfl⟩
        rcases List.mem_cons.mp hu2 with h | hu3
        · rw [h]; exact ⟨rfl, rfl, rfl⟩
        rcases List.mem_cons.mp hu3 with h | hu4
        · rw [h]; exact ⟨rfl, rfl, rfl⟩
        rcases List.mem_cons.mp hu4 with h | hu5
        · rw [h]; exact ⟨rfl, rfl, rfl⟩
        · exact hmemA u hu5
      · rcases htermA with ⟨p, h1, h2, h3, _, _⟩ | hf
        · exact Or.inl ⟨p, h1, h2, h3⟩
        · exact Or.inr hf
  | some l =>
    cases l with
    | nil =>
      cases hss : env.searchSimple req.term req.limit with
      | error e =>
        refine ⟨[snapRunning, snapInit, snapTerm req.term, snapGeneral req.term],
          { snapGeneral req.term with status := .failed },
          { snapGeneral req.term with status := .failed, error := some e },
          rfl, by simp, ?_, rfl, Or.inr ⟨e, rfl, rfl, rfl⟩⟩
        intro u hu
        simp only [List.mem_cons, List.not_mem_nil, or_false] at hu
        rcases hu with h | h | h | h <;> rw [h] <;> exact ⟨rfl, rfl, rfl⟩
      | ok allP =>
        obtain ⟨bodyA, tp, tf, heqA, hneA, hmemA, htpA, htermA⟩ :=
          afterSearch_split req env (snapGeneral req.term) allP rfl rfl rfl
        refine ⟨snapRunning :: snapInit :: snapTerm req.term :: snapGeneral req.term :: bodyA,
          tp, tf, ?_, by simp, ?_, htpA, ?_⟩
        · dsimp only
          rw [heqA]
          simp
        · intro u hu
          rcases List.mem_cons.mp hu with h | hu2
          · rw [h]; exact ⟨rfl, rfl, rfl⟩
          rcases List.mem_cons.mp hu2 with h | hu3
          · rw [h]; exact ⟨rfl, rfl, rfl⟩
          rcases List.mem_cons.mp hu3 with h | hu4
          · rw [h]; exact ⟨rfl, rfl, rfl⟩
          rcases List.mem_cons.mp hu4 with h | hu5
          · rw [h]; exact ⟨rfl, rfl, rfl⟩
          · exact hmemA u hu5
        · rcases htermA with ⟨p, h1, h2, h3, _, _⟩ | hf
          · exact Or.inl ⟨p, h1, h2, h3⟩
          · exact Or.inr hf
    | cons c cs =>
      dsimp only
      obtain ⟨hmemC, hsC, hrC, heC⟩ :=
        countryLoop_snaps env req.term req.limit (c :: cs) (snapTerm req.term) []
      cases hres : (countryLoop env req.term req.limit (snapTerm req.term) [] (c :: cs)).2.2 with
      | error e =>
        refine ⟨snapRunning :: snapInit :: snapTerm req.term
            :: (countryLoop env req.term req.limit (snapTerm req.term) [] (c :: cs)).1,
          { (countryLoop env req.term req.limit (snapTerm req.term) [] (c :: cs)).2.1 with
            status := .failed },
          { (countryLoop env req.term req.limit (snapTerm req.term) [] (c :: cs)).2.1 with
            status := .failed
            error := some e },
          ?_, by simp, ?_, rfl, Or.inr ⟨e, rfl, hrC, rfl⟩⟩
        · simp [failTrace]
        · intro u hu
          rcases List.mem_cons.mp hu with h | hu2
          · rw [h]; exact ⟨rfl, rfl, rfl⟩
          rcases List.mem_cons.mp hu2 with h | hu3
          · rw [h]; exact ⟨rfl, rfl, rfl⟩
          rcases List.mem_cons.mp hu3 with h | hu4
          · rw [h]; exact ⟨rfl, rfl, rfl⟩
          · obtain ⟨h1, h2, h3⟩ := hmemC u hu4
            exact ⟨h1, h2, h3⟩
      | ok allP =>
        obtain ⟨bodyA, tp, tf, heqA, hneA, hmemA, htpA, htermA⟩ :=
          afterSearch_split req env
            (countryLoop env req.term req.limit (snapTerm req.term) [] (c :: cs)).2.1 allP
            hsC hrC heC
        refine ⟨snapRunning :: snapInit :: snapTerm req.term
            :: ((countryLoop env req.term req.limit (snapTerm req.term) [] (c :: cs)).1 ++ bodyA),
          tp, tf, ?_, by simp, ?_, htpA, ?_⟩
        · dsimp only
          rw [heqA]
          simp [List.append_assoc]
        · intro u hu
          rcases List.mem_cons.mp hu with h | hu2
          · rw [h]; exact ⟨rfl, rfl, rfl⟩
          rcases List.mem_cons.mp hu2 with h | hu3
          · rw [h]; exact ⟨rfl, rfl, rfl⟩
          rcases List.mem_cons.mp hu3 with h | hu4
          · rw [h]; exact ⟨rfl, rfl, rfl⟩
          rcases List.mem_append.mp hu4 with hu5 | hu5
          · obtain ⟨h1, h2, h3⟩ := hmemC u hu5
            exact ⟨h1, h2, h3⟩
          · exact hmemA u hu5
        · rcases htermA with ⟨p, h1, h2, h3, _, _⟩ | hf
          · exact Or.inl ⟨p, h1, h2, h3⟩
          · exact Or.inr hf

theorem trace_ok (req : SearchRequest) (env : Env) (allP : List Record)
    (hok : searchOutcome req env = .ok allP) :
    ∃ pre t, executeSearchTrace req env = pre ++ afterSearch req env t allP
      ∧ t.status = .running ∧ t.result = none ∧ t.error = none
      ∧ finalTask req env = (afterSearch req env t allP).getLastD initTask := by
  have hfin : ∀ pre t, executeSearchTrace req env = pre ++ afterSearch req env t allP →
      finalTask req env = (afterSearch req env t allP).getLastD initTask := by
    intro pre t hpre
    unfold finalTask
    rw [hpre, getLastD_append_right _ _ _ (afterSearch_ne_nil req env t allP)]
  unfold searchOutcome at hok
  cases hc : req.countries with
  | none =>
    rw [hc] at hok
    replace hok : env.searchSimple req.term req.limit = .ok allP := hok
    have htr : executeSearchTrace req env
        = [snapRunning, snapInit, snapTerm req.term, snapGeneral req.term]
          ++ afterSearch req env (snapGeneral req.term) allP := by
      unfold executeSearchTrace
      rw [hc, hok]
      simp
    exact ⟨_, _, htr, rfl, rfl, rfl, hfin _ _ htr⟩
  | some l =>
    cases l with
    | nil =>
      rw [hc] at hok
      replace hok : env.searchSimple req.term req.limit = .ok allP := hok
      have htr : executeSearchTrace req env
          = [snapRunning, snapInit, snapTerm req.term, snapGeneral req.term]
            ++ afterSearch req env (snapGeneral req.term) allP := by
        unfold executeSearchTrace
        rw [hc, hok]
        simp
      exact ⟨_, _, htr, rfl, rfl, rfl, hfin _ _ htr⟩
    | cons c cs =>
      rw [hc] at hok
      replace hok : gather env req.term req.limit [] (c :: cs) = .ok allP := hok
      obtain ⟨hmemC, hsC, hrC, heC⟩ :=
        countryLoop_snaps env req.term req.limit (c :: cs) (snapTerm req.term) []
      have hres : (countryLoop env req.term req.limit (snapTerm req.term) [] (c :: cs)).2.2
          = .ok allP := by
        rw [countryLoop_res env req.term req.limit (c :: cs) (snapTerm req.term) []]
        exact hok
      have htr : executeSearchTrace req env
          = (snapRunning :: snapInit :: snapTerm req.term
              :: (countryLoop env req.term req.limit (snapTerm req.term) [] (c :: cs)).1)
            ++ afterSearch req env
                (countryLoop env req.term req.limit (snapTerm req.term) [] (c :: cs)).2.1
                allP := by
        unfold executeSearchTrace
        rw [hc]
        dsimp only
        rw [hres]
        simp
      exact ⟨_, _, htr, hsC, hrC, heC, hfin _ _ htr⟩

theorem squash_cons_eq (s : Status) (r : List Status) :
    squash (s :: s :: r) = squash (s :: r) := by
  simp [squash]

theorem squash_cons_ne (s s2 : Status) (r : List Status) (h : s ≠ s2) :
    squash (s :: s2 :: r) = s :: squash (s2 :: r) := by
  simp [squash, h]

theorem squash_replicate_run (x : Status) (hx : x ≠ .running) :
    ∀ n, squash (List.replicate (n + 1) Status.running ++ [x, x]) = [.running, x] := by
  intro n
  induction n with
  | zero =>
    have h1 : List.replicate (0 + 1) Status.running ++ [x, x] = [.running, x, x] := by
      simp [List.replicate_succ]
    rw [h1, squash_cons_ne _ _ _ (fun he => hx he.symm), squash_cons_eq]
    rfl
  | succ n ih =>
    have h2 : List.replicate (n + 1 + 1) Status.running ++ [x, x]
        = .running :: (List.replicate (n + 1) Status.running ++ [x, x]) := by
      simp [List.replicate_succ]
    have h3 : List.replicate (n + 1) Status.running ++ [x, x]
        = .running :: (List.replicate n Status.running ++ [x, x]) := by
      simp [List.replicate_succ]
    rw [h2, h3, squash_cons_eq, ← h3, ih]

theorem squash_q (x : Status) (hx : x ≠ .running) (n : Nat) :
    squash (Status.queued :: (List.replicate (n + 1) Status.running ++ [x, x]))
      = [.queued, .running, x] := by
  have h3 : List.replicate (n + 1) Status.running ++ [x, x]
      = .running :: (List.replicate n Status.running ++ [x, x]) := by
    simp [List.replicate_succ]
  rw [h3, squash_cons_ne _ _ _ (by decide), ← h3, squash_replicate_run x hx n]

/-- C1: for every task created by submit, the sequence of statuses the
registry holds is a forward walk through queued, running and then exactly
one terminal status: collapsing consecutive duplicates of the status trace
yields exactly `[queued, running, completed]` or `[queued, running, failed]`,
so the task is created `queued`, the worker sets `running` before any
terminal status, no status regresses, no earlier status repeats, and
nothing follows a terminal status. -/
theorem task_status_walk (req : SearchRequest) (env : Env) :
    squash ((taskTrace req env).map Task.status) = [.queued, .running, .completed]
    ∨ squash ((taskTrace req env).map Task.status) = [.queued, .running, .failed] := by
  obtain ⟨body, tp, tf, heq, hne, hmem, htp, hterm⟩ := trace_split req env
  obtain ⟨n, hn⟩ : ∃ n, body.length = n + 1 := by
    cases body with
    | nil => exact absurd rfl hne
    | cons a l => exact ⟨l.length, rfl⟩
  have hrep : body.map Task.status = List.replicate (n + 1) Status.running := by
    rw [← hn]
    refine List.eq_replicate_iff.mpr ⟨by simp, ?_⟩
    intro b hb
    obtain ⟨u, hu, hub⟩ := List.mem_map.mp hb
    rw [← hub]
    exact (hmem u hu).1
  have hmap : (taskTrace req env).map Task.status
      = Status.queued :: (List.replicate (n + 1) Status.running ++ [tf.status, tf.status]) := by
    rw [taskTrace, List.map_cons, heq, List.map_append]
    simp [hrep, htp, initTask]
  rcases hterm with ⟨p, h1, h2, h3⟩ | ⟨m, h1, h2, h3⟩
  · left
    rw [hmap, h1]
    exact squash_q _ (by decide) n
  · right
    rw [hmap, h1]
    exact squash_q _ (by decide) n

/-- C2: once the worker has returned, the task's result payload is present
if and only if its status is `completed`, and its error message is present
if and only if its status is `failed`; moreover every registry snapshot in
`queued` or `running` status carries neither a result nor an error. -/
theorem result_error_iff (req : SearchRequest) (env : Env) :
    ((finalTask req env).result.isSome ↔ (finalTask req env).status = .completed)
    ∧ ((finalTask req env).error.isSome ↔ (finalTask req env).status = .failed)
    ∧ ∀ u ∈ taskTrace req env,
        (u.status = .queued ∨ u.status = .running) → u.result = none ∧ u.error = none := by
  obtain ⟨body, tp, tf, heq, hne, hmem, htp, hterm⟩ := trace_split req env
  have hfin : finalTask req env = tf := by
    unfold finalTask
    rw [heq]
    exact getLastD_append_pair body tp tf initTask
  rw [hfin]
  refine ⟨?_, ?_, ?_⟩
  · rcases hterm with ⟨p, h1, h2, h3⟩ | ⟨m, h1, h2, h3⟩
    · simp [h1, h2]
    · simp [h1, h2]
  · rcases hterm with ⟨p, h1, h2, h3⟩ | ⟨m, h1, h2, h3⟩ <;> simp [h1, h2, h3]
  · intro u hu hqr
    rcases List.mem_cons.mp hu with h | hu2
    · rw [h]
      exact ⟨rfl, rfl⟩
    rw [heq] at hu2
    rcases List.mem_append.mp hu2 with h | h
    · obtain ⟨_, h2, h3⟩ := hmem u h
      exact ⟨h2, h3⟩
    · rcases List.mem_cons.mp h with h4 | h4
      · rcases hterm with ⟨p, h1, _, _⟩ | ⟨m, h1, _, _⟩ <;>
          (rw [h4, htp, h1] at hqr; rcases hqr with hq | hq <;> simp at hq)
      · rcases List.mem_cons.mp h4 with h5 | h5
        · rcases hterm with ⟨p, h1, _, _⟩ | ⟨m, h1, _, _⟩ <;>
            (rw [h5, h1] at hqr; rcases hqr with hq | hq <;> simp at hq)
        · simp at h5

theorem final_simple_error (req : SearchRequest) (env : Env) (e : String)
    (hc : req.countries = none)
    (hE : env.searchSimple req.term req.limit = .error e) :
    (finalTask req env).status = .failed ∧ (finalTask req env).error = some e := by
  have hf : finalTask req env
      = { snapGeneral req.term with status := .failed, error := some e } := by
    unfold finalTask executeSearchTrace
    rw [hc, hE]
    simp [failTrace, List.getLastD_cons]
  rw [hf]
  exact ⟨rfl, rfl⟩

/-- The record list the pipeline carries past the enrichment step
(lines 137-151): the enriched list when enrichment was requested and
succeeded, the unchanged deduplicated list otherwise. -/
def enrichedList (req : SearchRequest) (env : Env) (pl : List Record) : List Record :=
  if req.get_details ∧ 0 < pl.length then
    match env.enrich pl req.max_details with
    | .ok pl2 => pl2
    | .error _ => pl
  else pl

theorem enrichStep_list (req : SearchRequest) (env : Env) (t : Task) (pl : List Record) :
    (enrichStep req env t pl).2.2 = enrichedList req env pl := by
  unfold enrichStep enrichedList
  by_cases hc : req.get_details ∧ 0 < pl.length
  · rw [if_pos hc, if_pos hc]
    cases env.enrich pl req.max_details with
    | ok pl2 => rfl
    | error e => rfl
  · rw [if_neg hc, if_neg hc]

theorem persistAndFinish_ne_nil (req : SearchRequest) (env : Env) (t : Task)
    (allLen : Nat) (pl2 : List Record) :
    persistAndFinish req env t allLen pl2 ≠ [] := by
  unfold persistAndFinish
  cases env.writeGrouped (jsonFileOf req env) (agrupar pl2) with
  | error e => simp [failTrace]
  | ok u =>
    cases env.writeSummary (summaryFileOf req env) (summaryOf req env allLen pl2) with
    | error e => simp [failTrace]
    | ok u2 => simp

theorem persistAndFinish_last_wg_error (req : SearchRequest) (env : Env) (t : Task)
    (allLen : Nat) (pl2 : List Record) (e : String) (d : Task)
    (hw : env.writeGrouped (jsonFileOf req env) (agrupar pl2) = .error e) :
    (persistAndFinish req env t allLen pl2).getLastD d
      = { t with
          progress := some "Saving results..."
          status := .failed
          error := some e } := by
  unfold persistAndFinish
  rw [hw]
  simp [failTrace, List.getLastD_cons]

theorem persistAndFinish_last_ws_error (req : SearchRequest) (env : Env) (t : Task)
    (allLen : Nat) (pl2 : List Record) (e : String) (d : Task)
    (hw1 : env.writeGrouped (jsonFileOf req env) (agrupar pl2) = .ok ())
    (hw2 : env.writeSummary (summaryFileOf req env) (summaryOf req env allLen pl2)
      = .error e) :
    (persistAndFinish req env t allLen pl2).getLastD d
      = { t with
          progress := some "Saving results..."
          status := .failed
          error := some e } := by
  unfold persistAndFinish
  rw [hw1, hw2]
  simp [failTrace, List.getLastD_cons]

theorem afterSearch_last_write_error (req : SearchRequest) (env : Env) (t : Task)
    (allP : List Record) (e : String)
    (hne : patentsList allP ≠ [])
    (hcase : env.writeGrouped (jsonFileOf req env)
          (agrupar (enrichedList req env (patentsList allP))) = .error e
      ∨ (env.writeGrouped (jsonFileOf req env)
            (agrupar (enrichedList req env (patentsList allP))) = .ok ()
          ∧ env.writeSummary (summaryFileOf req env)
              (summaryOf req env allP.length (enrichedList req env (patentsList allP)))
              = .error e)) :
    ((afterSearch req env t allP).getLastD initTask).status = .failed
    ∧ ((afterSearch req env t allP).getLastD initTask).error = some e := by
  have hzl : ¬(patentsList allP).length = 0 := fun hc2 => hne (List.length_eq_zero.mp hc2)
  have hl : (afterSearch req env t allP).getLastD initTask
      = (persistAndFinish req env
          (enrichStep req env
            { t with progress := some ("Found " ++ toString (patentsList allP).length
                ++ " unique patents") } (patentsList allP)).2.1
          allP.length
          (enrichedList req env (patentsList allP))).getLastD initTask := by
    unfold afterSearch
    dsimp only
    rw [if_neg hzl]
    rw [List.getLastD_cons,
      getLastD_append_right _ _ _ (persistAndFinish_ne_nil req env _ allP.length _),
      enrichStep_list]
    exact getLastD_irrel _ (persistAndFinish_ne_nil req env _ allP.length _) _ initTask
  rcases hcase with hw | ⟨hw1, hw2⟩
  · rw [hl, persistAndFinish_last_wg_error req env _ allP.length _ e initTask hw]
    exact ⟨rfl, rfl⟩
  · rw [hl, persistAndFinish_last_ws_error req env _ allP.length _ e initTask hw1 hw2]
    exact ⟨rfl, rfl⟩

theorem final_search_error (req : SearchRequest) (env : Env) (e : String)
    (hse : searchOutcome req env = .error e) :
    (finalTask req env).status = .failed ∧ (finalTask req env).error = some e := by
  unfold searchOutcome at hse
  cases hc : req.countries with
  | none =>
    rw [hc] at hse
    replace hse : env.searchSimple req.term req.limit = .error e := hse
    exact final_simple_error req env e hc hse
  | some l =>
    cases l with
    | nil =>
      rw [hc] at hse
      replace hse : env.searchSimple req.term req.limit = .error e := hse
      have hf : finalTask req env
          = { snapGeneral req.term with status := .failed, error := some e } := by
        unfold finalTask executeSearchTrace
        rw [hc, hse]
        simp [failTrace, List.getLastD_cons]
      rw [hf]
      exact ⟨rfl, rfl⟩
    | cons c cs =>
      rw [hc] at hse
      replace hse : gather env req.term req.limit [] (c :: cs) = .error e := hse
      have hres : (countryLoop env req.term req.limit (snapTerm req.term) [] (c :: cs)).2.2
          = .error e := by
        rw [countryLoop_res env req.term req.limit (c :: cs) (snapTerm req.term) []]
        exact hse
      have hf : finalTask req env
          = { (countryLoop env req.term req.limit (snapTerm req.term) [] (c :: cs)).2.1 with
              status := .failed
              error := some e } := by
        unfold finalTask executeSearchTrace
        rw [hc]
        dsimp only
        rw [hres]
        dsimp only
        rw [List.getLastD_cons, List.getLastD_cons, List.getLastD_cons,
          getLastD_append_right _ _ _ (by simp [failTrace])]
        simp [failTrace, List.getLastD_cons]
      rw [hf]
      exact ⟨rfl, rfl⟩

/-- C4: no exception escapes the worker: for every collaborator outcome the
worker ends in a terminal status (never `running`) and a failed end state
always carries an error message; any raise in the search stage (either
search shape, at any country position) ends the task `failed` with exactly
the raised message, and so does any raise in either persistence write,
over the list the pipeline actually carries there, whether or not
enrichment was requested. -/
theorem worker_catches (req : SearchRequest) (env : Env) :
    ((finalTask req env).status = .completed ∨ (finalTask req env).status = .failed)
    ∧ ((finalTask req env).status = .failed → ∃ m, (finalTask req env).error = some m)
    ∧ (∀ e, searchOutcome req env = .error e →
        (finalTask req env).status = .failed ∧ (finalTask req env).error = some e)
    ∧ (∀ allP e, searchOutcome req env = .ok allP → patentsList allP ≠ [] →
        env.writeGrouped (jsonFileOf req env)
          (agrupar (enrichedList req env (patentsList allP))) = .error e →
        (finalTask req env).status = .failed ∧ (finalTask req env).error = some e)
    ∧ (∀ allP e, searchOutcome req env = .ok allP → patentsList allP ≠ [] →
        env.writeGrouped (jsonFileOf req env)
          (agrupar (enrichedList req env (patentsList allP))) = .ok () →
        env.writeSummary (summaryFileOf req env)
          (summaryOf req env allP.length (enrichedList req env (patentsList allP)))
          = .error e →
        (finalTask req env).status = .failed ∧ (finalTask req env).error = some e) := by
  obtain ⟨body, tp, tf, heq, hne, hmem, htp, hterm⟩ := trace_split req env
  have hfin : finalTask req env = tf := by
    unfold finalTask
    rw [heq]
    exact getLastD_append_pair body tp tf initTask
  refine ⟨?_, ?_, ?_, ?_, ?_⟩
  · rw [hfin]
    rcases hterm with ⟨p, h1, _, _⟩ | ⟨m, h1, _, _⟩
    · exact Or.inl h1
    · exact Or.inr h1
  · rw [hfin]
    intro hfail
    rcases hterm with ⟨p, h1, _, _⟩ | ⟨m, h1, _, h3⟩
    · rw [h1] at hfail
      simp at hfail
    · exact ⟨m, h3⟩
  · intro e hse
    exact final_search_error req env e hse
  · intro allP e hok hne2 hw
    obtain ⟨pre, t, htr, ht, hr, he, hfa⟩ := trace_ok req env allP hok
    rw [hfa]
    exact afterSearch_last_write_error req env t allP e hne2 (Or.inl hw)
  · intro allP e hok hne2 hw1 hw2
    obtain ⟨pre, t, htr, ht, hr, he, hfa⟩ := trace_ok req env allP hok
    rw [hfa]
    exact afterSearch_last_write_error req env t allP e hne2 (Or.inr ⟨hw1, hw2⟩)

theorem final_empty_result (req : SearchRequest) (env : Env) (allP : List Record)
    (hok : searchOutcome req env = .ok allP) (hemp : patentsList allP = []) :
    finalTask req env
      = { status := .completed
          progress := some "Found 0 unique patents"
          result := some (.empty "No patents found" 0 [])
          error := none } := by
  obtain ⟨pre, t, htr, ht, hr, he, hfa⟩ := trace_ok req env allP hok
  rw [hfa, afterSearch_empty req env t allP hemp]
  rw [List.getLastD_cons, List.getLastD_cons, List.getLastD_cons]
  obtain ⟨ts, tpg, trr, terr⟩ := t
  simp only at ht hr he
  subst ht
  subst hr
  subst he
  rfl

theorem trace_env_congr (req : SearchRequest) (env env2 : Env) (allP : List Record)
    (hsc : env2.searchCountry = env.searchCountry)
    (hss : env2.searchSimple = env.searchSimple)
    (hok : searchOutcome req env = .ok allP)
    (hemp : patentsList allP = []) :
    executeSearchTrace req env2 = executeSearchTrace req env := by
  unfold searchOutcome at hok
  unfold executeSearchTrace
  cases hc : req.countries with
  | none =>
    rw [hc] at hok
    replace hok : env.searchSimple req.term req.limit = .ok allP := hok
    rw [hss, hok]
    show snapRunning :: snapInit :: snapTerm req.term :: snapGeneral req.term
        :: afterSearch req env2 (snapGeneral req.term) allP
      = snapRunning :: snapInit :: snapTerm req.term :: snapGeneral req.term
        :: afterSearch req env (snapGeneral req.term) allP
    rw [afterSearch_empty req env2 _ allP hemp, afterSearch_empty req env _ allP hemp]
  | some l =>
    cases l with
    | nil =>
      rw [hc] at hok
      replace hok : env.searchSimple req.term req.limit = .ok allP := hok
      rw [hss, hok]
      show snapRunning :: snapInit :: snapTerm req.term :: snapGeneral req.term
          :: afterSearch req env2 (snapGeneral req.term) allP
        = snapRunning :: snapInit :: snapTerm req.term :: snapGeneral req.term
          :: afterSearch req env (snapGeneral req.term) allP
      rw [afterSearch_empty req env2 _ allP hemp, afterSearch_empty req env _ allP hemp]
    | cons c cs =>
      rw [hc] at hok
      replace hok : gather env req.term req.limit [] (c :: cs) = .ok allP := hok
      have hres : (countryLoop env req.term req.limit (snapTerm req.term) [] (c :: cs)).2.2
          = .ok allP := by
        rw [countryLoop_res env req.term req.limit (c :: cs) (snapTerm req.term) []]
        exact hok
      dsimp only
      rw [countryLoop_congr env env2 req.term req.limit hsc (c :: cs) (snapTerm req.term) [],
        hres]
      dsimp only
      rw [afterSearch_empty req env2 _ allP hemp, afterSearch_empty req env _ allP hemp]

/-- C5: a run in which zero records survive deduplication ends `completed`
(never `failed`) with the explicit empty-patents payload, and the whole
registry trace depends only on the search collaborator: replacing the
enrichment, grouping, persistence and timestamp collaborators leaves the
trace unchanged, so none of those stages runs. -/
theorem empty_run_completes (req : SearchRequest) (env : Env) (allP : List Record)
    (hok : searchOutcome req env = .ok allP) (hemp : patentsList allP = []) :
    finalTask req env
      = { status := .completed
          progress := some "Found 0 unique patents"
          result := some (.empty "No patents found" 0 [])
          error := none }
    ∧ ∀ env2 : Env, env2.searchCountry = env.searchCountry →
        env2.searchSimple = env.searchSimple →
        executeSearchTrace req env2 = executeSearchTrace req env := by
  constructor
  · exact final_empty_result req env allP hok hemp
  · intro env2 hsc hss
    exact trace_env_congr req env env2 allP hsc hss hok hemp

/-- An example request whose search finds nothing. -/
def wReq : SearchRequest := { term := "nothing" }

/-- An example collaborator environment whose searches return no records. -/
def wEnv : Env :=
  { searchCountry := fun _ _ _ => .ok []
    searchSimple := fun _ _ => .ok []
    enrich := fun l _ => .ok l
    writeGrouped := fun _ _ => .ok ()
    writeSummary := fun _ _ => .ok ()
    timestamp := "20251012_120000"
    isoNow := "2025-10-12T12:00:00" }

/-- C5 checked on a concrete empty run. -/
theorem empty_run_completes_witness :
    finalTask wReq wEnv
      = { status := .completed
          progress := some "Found 0 unique patents"
          result := some (.empty "No patents found" 0 [])
          error := none }
    ∧ ∀ env2 : Env, env2.searchCountry = wEnv.searchCountry →
        env2.searchSimple = wEnv.searchSimple →
        executeSearchTrace wReq env2 = executeSearchTrace wReq wEnv :=
  empty_run_completes wReq wEnv [] rfl rfl

theorem afterSearch_enrich_error (req : SearchRequest) (env : Env) (t : Task)
    (allP : List Record) (msg : String)
    (hne : patentsList allP ≠ [])
    (hgd : req.get_details = true)
    (henr : env.enrich (patentsList allP) req.max_details = .error msg)
    (hw1 : env.writeGrouped (jsonFileOf req env) (agrupar (patentsList allP)) = .ok ())
    (hw2 : env.writeSummary (summaryFileOf req env)
        (summaryOf req env allP.length (patentsList allP)) = .ok ()) :
    afterSearch req env t allP
      = [{ t with progress := some ("Found " ++ toString (patentsList allP).length
            ++ " unique patents") },
         { t with progress := some "Retrieving complete details..." },
         { t with progress := some ("Error retrieving details: " ++ msg) },
         { t with progress := some "Saving results..." },
         { t with progress := some "Saving results...", status := .completed },
         { t with
           progress := some "Saving results..."
           status := .completed
           result := some (fullPayload req env allP.length (patentsList allP)) }] := by
  have hzl : ¬(patentsList allP).length = 0 := fun hc => hne (List.length_eq_zero.mp hc)
  have hlen : 0 < (patentsList allP).length := Nat.pos_of_ne_zero hzl
  have hen : enrichStep req env
      { t with progress := some ("Found " ++ toString (patentsList allP).length
          ++ " unique patents") } (patentsList allP)
      = ([{ t with progress := some "Retrieving complete details..." },
          { t with progress := some ("Error retrieving details: " ++ msg) }],
         { t with progress := some ("Error retrieving details: " ++ msg) },
         patentsList allP) := by
    unfold enrichStep
    rw [if_pos ⟨hgd, hlen⟩, henr]
  unfold afterSearch
  dsimp only
  rw [if_neg hzl, hen]
  dsimp only
  unfold persistAndFinish
  rw [hw1, hw2]
  simp

/-- C6: when detail-enrichment is requested and the enrichment collaborator
raises, the task does not fail: it still completes, the error field stays
empty, the failure message appears only in a progress snapshot, and the
final result is built from the deduplicated non-enriched record list. -/
theorem enrichment_failure_recovered (req : SearchRequest) (env : Env)
    (allP : List Record) (msg : String)
    (hok : searchOutcome req env = .ok allP)
    (hne : patentsList allP ≠ [])
    (hgd : req.get_details = true)
    (henr : env.enrich (patentsList allP) req.max_details = .error msg)
    (hw1 : env.writeGrouped (jsonFileOf req env) (agrupar (patentsList allP)) = .ok ())
    (hw2 : env.writeSummary (summaryFileOf req env)
        (summaryOf req env allP.length (patentsList allP)) = .ok ()) :
    (finalTask req env).status = .completed
    ∧ (finalTask req env).error = none
    ∧ (finalTask req env).result
        = some (fullPayload req env allP.length (patentsList allP))
    ∧ ∃ u ∈ taskTrace req env,
        u.progress = some ("Error retrieving details: " ++ msg) := by
  obtain ⟨pre, t, htr, ht, hr, he, hfa⟩ := trace_ok req env allP hok
  have haf := afterSearch_enrich_error req env t allP msg hne hgd henr hw1 hw2
  have hfin : finalTask req env
      = { t with
          progress := some "Saving results..."
          status := .completed
          result := some (fullPayload req env allP.length (patentsList allP)) } := by
    rw [hfa, haf]
    rw [List.getLastD_cons, List.getLastD_cons, List.getLastD_cons,
      List.getLastD_cons, List.getLastD_cons, List.getLastD_cons]
    rfl
  refine ⟨by rw [hfin], by rw [hfin]; exact he, by rw [hfin], ?_⟩
  refine ⟨{ t with progress := some ("Error retrieving details: " ++ msg) }, ?_, rfl⟩
  rw [taskTrace, htr, haf]
  simp

/-- An example request that asks for detail enrichment. -/
def vReq : SearchRequest :=
  { term := "aspirin", limit := 5, countries := some ["US"], get_details := true }

/-- An example environment whose enrichment collaborator raises. -/
def vEnv : Env :=
  { searchCountry := fun _ _ _ => .ok [{ publicationNumber := "US1" }]
    searchSimple := fun _ _ => .ok []
    enrich := fun _ _ => .error "boom"
    writeGrouped := fun _ _ => .ok ()
    writeSummary := fun _ _ => .ok ()
    timestamp := "20251012_120000"
    isoNow := "2025-10-12T12:00:00" }

/-- C6 checked on a concrete run whose enrichment collaborator raises. -/
theorem enrichment_failure_recovered_witness :
    (finalTask vReq vEnv).status = .completed
    ∧ (finalTask vReq vEnv).error = none
    ∧ (finalTask vReq vEnv).result
        = some (fullPayload vReq vEnv
            ([{ publicationNumber := "US1", pais_filtro := some "US" }] : List Record).length
            (patentsList [{ publicationNumber := "US1", pais_filtro := some "US" }]))
    ∧ ∃ u ∈ taskTrace vReq vEnv,
        u.progress = some ("Error retrieving details: " ++ "boom") :=
  enrichment_failure_recovered vReq vEnv
    [{ publicationNumber := "US1", pais_filtro := some "US" }] "boom"
    rfl (by decide) rfl rfl rfl rfl

/-! ## Country fan-out (lines 92-109 and 217-227) -/

theorem gather_full (env : Env) (term : String) (lim : Nat) :
    ∀ (ds : List String) (acc : List Record),
      (∀ d ∈ ds, ∃ rs, env.searchCountry term d lim = .ok rs ∧ rs.length = lim) →
      ∃ l, gather env term lim acc ds = .ok l
        ∧ l.length = acc.length + ds.length * lim := by
  intro ds
  induction ds with
  | nil =>
    intro acc h
    exact ⟨acc, rfl, by simp⟩
  | cons d ds ih =>
    intro acc h
    obtain ⟨rs, hrs, hlen⟩ := h d (List.mem_cons_self _ _)
    obtain ⟨l, hl, hllen⟩ :=
      ih (acc ++ tagCountry d rs) (fun d2 hd2 => h d2 (List.mem_cons_of_mem _ hd2))
    refine ⟨l, ?_, ?_⟩
    · unfold gather
      rw [hrs]
      exact hl
    · rw [hllen]
      simp [tagCountry, hlen]
      ring

/-- An example request with two country filters and limit 1. -/
def xReq : SearchRequest := { term := "aspirin", limit := 1, countries := some ["US", "EP"] }

/-- An example environment returning one distinct record per country. -/
def xEnv : Env :=
  { searchCountry := fun _ c _ =>
      if c = "US" then .ok [{ publicationNumber := "US1" }]
      else .ok [{ publicationNumber := "EP1" }]
    searchSimple := fun _ _ => .ok []
    enrich := fun l _ => .ok l
    writeGrouped := fun _ _ => .ok ()
    writeSummary := fun _ _ => .ok ()
    timestamp := "20251012_120000"
    isoNow := "2025-10-12T12:00:00" }

/-- C9: with k country filters the worker queries the search collaborator
once per country, passing the request's full limit each time, and
concatenates the batches, so full batches give k times the limit records
before deduplication; concretely, a two-country run with limit 1 completes
with total_patents 2, exceeding the request's limit. -/
theorem multi_country_fanout (req : SearchRequest) (env : Env) (c : String) (cs : List String)
    (hc : req.countries = some (c :: cs))
    (hfull : ∀ d ∈ c :: cs, ∃ rs, env.searchCountry req.term d req.limit = .ok rs
        ∧ rs.length = req.limit) :
    (∃ allP, searchOutcome req env = .ok allP
        ∧ allP.length = (c :: cs).length * req.limit)
    ∧ xReq.countries = some ["US", "EP"] ∧ xReq.limit = 1
    ∧ (finalTask xReq xEnv).status = .completed
    ∧ (finalTask xReq xEnv).result.map ResultPayload.totalPatents = some (some 2)
    ∧ xReq.limit < 2 := by
  refine ⟨?_, rfl, rfl, by decide, by decide, by decide⟩
  obtain ⟨l, hl, hlen⟩ := gather_full env req.term req.limit (c :: cs) [] hfull
  refine ⟨l, ?_, by simpa using hlen⟩
  unfold searchOutcome
  rw [hc]
  exact hl

/-- C9 checked at the concrete two-country run. -/
theorem multi_country_fanout_witness :
    (∃ allP, searchOutcome xReq xEnv = .ok allP
        ∧ allP.length = (("US" :: ["EP"]) : List String).length * xReq.limit)
    ∧ xReq.countries = some ["US", "EP"] ∧ xReq.limit = 1
    ∧ (finalTask xReq xEnv).status = .completed
    ∧ (finalTask xReq xEnv).result.map ResultPayload.totalPatents = some (some 2)
    ∧ xReq.limit < 2 :=
  multi_country_fanout xReq xEnv "US" ["EP"] rfl
    (by
      intro d hd
      rcases List.mem_cons.mp hd with h1 | hd2
      · subst h1
        exact ⟨[{ publicationNumber := "US1" }], rfl, rfl⟩
      rcases List.mem_cons.mp hd2 with h1 | hd3
      · subst h1
        exact ⟨[{ publicationNumber := "EP1" }], rfl, rfl⟩
      · simp at hd3)

/-- C10: a completed result payload has two distinct shapes: the
zero-survivor payload carries exactly the keys message, total_found and
patents and lacks statistics, total_patents, search_info and files (so a
client reading result.total_patents or result.statistics there accesses a
missing key), while every non-empty completed result carries exactly the
keys search_info, statistics, total_patents, patents and files. -/
theorem result_shapes (req : SearchRequest) (env : Env) (allP : List Record)
    (hok : searchOutcome req env = .ok allP) :
    (patentsList allP = [] →
      ∃ p, (finalTask req env).result = some p
        ∧ p.keys = ["message", "total_found", "patents"]
        ∧ "statistics" ∉ p.keys ∧ "total_patents" ∉ p.keys
        ∧ "search_info" ∉ p.keys ∧ "files" ∉ p.keys
        ∧ p.totalPatents = none)
    ∧ (∀ p, patentsList allP ≠ [] → (finalTask req env).result = some p →
        p.keys = ["search_info", "statistics", "total_patents", "patents", "files"]
        ∧ "total_patents" ∈ p.keys ∧ "statistics" ∈ p.keys) := by
  constructor
  · intro hemp
    rw [final_empty_result req env allP hok hemp]
    exact ⟨.empty "No patents found" 0 [], rfl, rfl,
      by decide, by decide, by decide, by decide, rfl⟩
  · intro p hne hres
    obtain ⟨pre, t, htr, ht, hr, he, hfa⟩ := trace_ok req env allP hok
    obtain ⟨bodyA, tp, tf, heqA, hneA, hmemA, htpA, htermA⟩ :=
      afterSearch_split req env t allP ht hr he
    have hfin : finalTask req env = tf := by
      rw [hfa, heqA]
      exact getLastD_append_pair bodyA tp tf initTask
    rw [hfin] at hres
    rcases htermA with ⟨p2, h1, h2, h3, hc1, hc2⟩ | ⟨m, h1, h2, h3⟩
    · rw [h2] at hres
      have hp : p2 = p := Option.some.inj hres
      obtain ⟨i, s, n, ps, f, hfull⟩ := hc2 hne
      rw [← hp, hfull]
      refine ⟨rfl, ?_, ?_⟩
      · show "total_patents"
          ∈ (["search_info", "statistics", "total_patents", "patents", "files"] : List String)
        decide
      · show "statistics"
          ∈ (["search_info", "statistics", "total_patents", "patents", "files"] : List String)
        decide
    · rw [h2] at hres
      exact absurd hres (by simp)

/-- C10 checked at a concrete empty run. -/
theorem result_shapes_witness :
    (patentsList ([] : List Record) = [] →
      ∃ p, (finalTask wReq wEnv).result = some p
        ∧ p.keys = ["message", "total_found", "patents"]
        ∧ "statistics" ∉ p.keys ∧ "total_patents" ∉ p.keys
        ∧ "search_info" ∉ p.keys ∧ "files" ∉ p.keys
        ∧ p.totalPatents = none)
    ∧ (∀ p, patentsList ([] : List Record) ≠ [] → (finalTask wReq wEnv).result = some p →
        p.keys = ["search_info", "statistics", "total_patents", "patents", "files"]
        ∧ "total_patents" ∈ p.keys ∧ "statistics" ∈ p.keys) :=
  result_shapes wReq wEnv [] rfl

end Pharmyrus
